import Mathlib

/-!
# Verification of the `cask` log segment manager

A shallow embedding of `src/log.rs` of the `cask` key-value store, together
with models (from the specification) of the parts of the repository that are
not in `src/`: the entry/hint binary codec (`data.rs`) and the 32-bit
checksum utility (`util.rs`).

Files are byte strings, modelled as `List Nat` with every byte `< 256` where
it matters.  Machine integers are `Nat` with explicit `% 2^32` where the
source truncates to `u32`.
-/

namespace Cask

/-- `2^32`: the modulus of the 32-bit checksum and of `u32` arithmetic. -/
def M : Nat := 4294967296

/-- The tombstone sentinel: a reserved value-length marker (`u32::MAX`).
Modelled from the spec: `data.rs` is not under `src/`; §4.2 says a tombstone
is encoded via one reserved value-length marker. -/
def SENTINEL : Nat := 4294967295

/-- One step of the incremental 32-bit checksum.
Modelled from the spec: `util.rs` (`xxhash32`, `XxHash32`) is not under
`src/`; §2 specifies a one-shot and incremental 32-bit checksum, and §8
(checksum sensitivity) requires that changing any single input byte changes
the digest.  We model it as a position-weighted fold modulo `2^32` with an
odd multiplier, which has exactly these properties. -/
def hashStep (h b : Nat) : Nat := (h * 31 + b) % M

/-- One-shot 32-bit checksum of a byte string (`util::xxhash32`).
Modelled from the spec (see `hashStep`). -/
def xxhash32 (bs : List Nat) : Nat := bs.foldl hashStep 0

/-- Incremental checksum state (`util::XxHash32`): `new` starts at the empty
digest, `write` folds bytes in, `get` reads the digest.  Modelled from the
spec (see `hashStep`). -/
def XxHash32.new : Nat := 0

/-- Fold a byte string into an incremental checksum state
(`XxHash32::write`, used via `Hint::write_bytes` on the hasher). -/
def XxHash32.write (h : Nat) (bs : List Nat) : Nat := bs.foldl hashStep h

theorem hashStep_lt (h b : Nat) : hashStep h b < M :=
  Nat.mod_lt _ (by decide)

theorem XxHash32.write_append (h : Nat) (bs cs : List Nat) :
    XxHash32.write h (bs ++ cs) = XxHash32.write (XxHash32.write h bs) cs := by
  simp [XxHash32.write]

theorem XxHash32.write_lt (a : Nat) (bs : List Nat) (h : a < M) :
    XxHash32.write a bs < M := by
  induction bs generalizing a with
  | nil => exact h
  | cons c cs ih => exact ih _ (hashStep_lt a c)

theorem xxhash32_lt (bs : List Nat) : xxhash32 bs < M :=
  XxHash32.write_lt 0 bs (by norm_num [M])

/-- The incremental checksum, started from `a`, is affine in `a` modulo
`2^32`: folding `r` maps `a` to `a * 31 ^ r.length + xxhash32 r`. -/
theorem write_modEq (a : Nat) (r : List Nat) :
    XxHash32.write a r ≡ a * 31 ^ r.length + xxhash32 r [MOD M] := by
  induction r generalizing a with
  | nil => simpa [XxHash32.write, xxhash32] using Nat.ModEq.refl a
  | cons x xs ih =>
    have h1 : XxHash32.write a (x :: xs) = XxHash32.write (hashStep a x) xs := rfl
    have h2 : xxhash32 (x :: xs) = XxHash32.write (hashStep 0 x) xs := rfl
    have e1 := ih (hashStep a x)
    have e2 := ih (hashStep 0 x)
    rw [h1, h2]
    have hm : hashStep a x ≡ a * 31 + x [MOD M] := Nat.mod_modEq _ _
    have hm0 : hashStep 0 x ≡ x [MOD M] := by
      unfold hashStep
      simpa using Nat.mod_modEq x M
    calc XxHash32.write (hashStep a x) xs
        ≡ hashStep a x * 31 ^ xs.length + xxhash32 xs [MOD M] := e1
      _ ≡ (a * 31 + x) * 31 ^ xs.length + xxhash32 xs [MOD M] :=
          Nat.ModEq.add_right _ (Nat.ModEq.mul_right _ hm)
      _ = a * 31 ^ (x :: xs).length + (x * 31 ^ xs.length + xxhash32 xs) := by
          simp [List.length_cons, pow_succ]; ring
      _ ≡ a * 31 ^ (x :: xs).length + (hashStep 0 x * 31 ^ xs.length + xxhash32 xs) [MOD M] :=
          Nat.ModEq.add_left _ (Nat.ModEq.add_right _ (Nat.ModEq.mul_right _ hm0.symm))
      _ ≡ a * 31 ^ (x :: xs).length + XxHash32.write (hashStep 0 x) xs [MOD M] :=
          Nat.ModEq.add_left _ e2.symm

/-- Changing one byte of the input changes the one-shot checksum, provided
the two bytes are genuine bytes (`< 256`). -/
theorem xxhash32_single_byte (l r : List Nat) (b b' : Nat)
    (hb : b < 256) (hb' : b' < 256) (hne : b ≠ b') :
    xxhash32 (l ++ b :: r) ≠ xxhash32 (l ++ b' :: r) := by
  intro heq
  have split : ∀ c : Nat, xxhash32 (l ++ c :: r) = XxHash32.write (hashStep (xxhash32 l) c) r := by
    intro c
    show (l ++ c :: r).foldl hashStep 0 = _
    rw [List.foldl_append, List.foldl_cons]
    rfl
  have e1 := write_modEq (hashStep (xxhash32 l) b) r
  have e2 := write_modEq (hashStep (xxhash32 l) b') r
  have key : hashStep (xxhash32 l) b * 31 ^ r.length + xxhash32 r ≡
      hashStep (xxhash32 l) b' * 31 ^ r.length + xxhash32 r [MOD M] := by
    calc hashStep (xxhash32 l) b * 31 ^ r.length + xxhash32 r
        ≡ XxHash32.write (hashStep (xxhash32 l) b) r [MOD M] := e1.symm
      _ = xxhash32 (l ++ b :: r) := (split b).symm
      _ = xxhash32 (l ++ b' :: r) := heq
      _ = XxHash32.write (hashStep (xxhash32 l) b') r := split b'
      _ ≡ hashStep (xxhash32 l) b' * 31 ^ r.length + xxhash32 r [MOD M] := e2
  have key2 : hashStep (xxhash32 l) b * 31 ^ r.length ≡
      hashStep (xxhash32 l) b' * 31 ^ r.length [MOD M] :=
    Nat.ModEq.add_right_cancel (Nat.ModEq.refl _) key
  have hcop : Nat.Coprime (31 ^ r.length) M := by
    have h2 : Nat.Coprime 31 2 := by decide
    have hM : M = 2 ^ 32 := by norm_num [M]
    rw [hM]
    exact Nat.Coprime.pow_left _ (h2.pow_right 32)
  have key3 : hashStep (xxhash32 l) b ≡ hashStep (xxhash32 l) b' [MOD M] :=
    Nat.ModEq.cancel_right_of_coprime (Nat.Coprime.symm hcop) key2
  have hs : ∀ c : Nat, c < 256 → hashStep (xxhash32 l) c ≡ xxhash32 l * 31 + c [MOD M] :=
    fun c _ => Nat.mod_modEq _ _
  have key4 : xxhash32 l * 31 + b ≡ xxhash32 l * 31 + b' [MOD M] :=
    ((hs b hb).symm.trans key3).trans (hs b' hb')
  have key5 : b ≡ b' [MOD M] :=
    Nat.ModEq.add_left_cancel (Nat.ModEq.refl (xxhash32 l * 31)) key4
  have hbM : b < M := lt_trans hb (by decide)
  have hb'M : b' < M := lt_trans hb' (by decide)
  exact hne ((Nat.mod_eq_of_lt hbM ▸ Nat.mod_eq_of_lt hb'M ▸ key5 : b = b'))

/-! ## Little-endian integer codec

Modelled from the spec: `data.rs` is not under `src/`; §4.2 fixes
little-endian integers of stated widths (checksum 4 bytes; the hint's value
offset wide enough for files beyond 4 GiB, hence 8 bytes). -/

/-- `w` little-endian bytes of `n` (truncating to `n % 256^w`). -/
def le : Nat → Nat → List Nat
  | 0, _ => []
  | w + 1, n => n % 256 :: le w (n / 256)

/-- Little-endian value of a byte string. -/
def leDec : List Nat → Nat
  | [] => 0
  | b :: bs => b + 256 * leDec bs

theorem le_length (w n : Nat) : (le w n).length = w := by
  induction w generalizing n with
  | zero => rfl
  | succ w ih => simp [le, ih]

theorem le_lt (w n : Nat) : ∀ b ∈ le w n, b < 256 := by
  induction w generalizing n with
  | zero => intro b hb; simp [le] at hb
  | succ w ih =>
    intro b hb
    simp only [le, List.mem_cons] at hb
    rcases hb with h | h
    · exact h ▸ Nat.mod_lt _ (by decide)
    · exact ih _ b h

theorem leDec_le (w n : Nat) (h : n < 256 ^ w) : leDec (le w n) = n := by
  induction w generalizing n with
  | zero =>
    interval_cases n
    rfl
  | succ w ih =>
    have hdiv : n / 256 < 256 ^ w := by
      rw [Nat.div_lt_iff_lt_mul (by decide : 0 < 256)]
      calc n < 256 ^ (w + 1) := h
        _ = 256 ^ w * 256 := by rw [pow_succ]
    simp only [le, leDec, ih (n / 256) hdiv]
    exact (Nat.mod_add_div n 256)

/-! ## Entry and Hint

Modelled from the spec: `data.rs` is not under `src/`.  §3 and §4.2 fix the
shapes: an Entry is key bytes, value bytes or a tombstone marker, a
timestamp, and a checksum over the rest of the record; its encoding is
checksum · timestamp · key length · value length · key bytes · value bytes,
little-endian, with the tombstone written as the reserved value-length
sentinel.  A Hint is timestamp · key length · value size · value offset
(8 bytes) · key bytes.  Field widths (timestamp 4, key length 2, value
length 4) are the implementer-chosen constants of the missing `data.rs`. -/

/-- A log record (`data::Entry`): key bytes, value bytes (`none` is a
tombstone), creation timestamp. -/
structure Entry where
  key : List Nat
  value : Option (List Nat)
  timestamp : Nat
  deriving Repr, DecidableEq

/-- The value-length field written for an entry: the value's length, or the
tombstone sentinel. -/
def Entry.vcode (e : Entry) : Nat :=
  match e.value with
  | some v => v.length
  | none => SENTINEL

/-- The value bytes written for an entry (none for a tombstone). -/
def Entry.valBytes (e : Entry) : List Nat :=
  match e.value with
  | some v => v
  | none => []

/-- Exact encoded byte length of an entry (`Entry::size`): 4-byte checksum,
4-byte timestamp, 2-byte key length, 4-byte value length, then key and value
bytes. -/
def Entry.size (e : Entry) : Nat := 14 + e.key.length + e.valBytes.length

/-- The checksummed part of an entry's encoding: everything after the
4-byte checksum field. -/
def Entry.body (e : Entry) : List Nat :=
  le 4 e.timestamp ++ le 2 e.key.length ++ le 4 e.vcode ++ e.key ++ e.valBytes

/-- Full encoding of an entry (`Entry::write_bytes`):
checksum · timestamp · key length · value length · key · value. -/
def Entry.encode (e : Entry) : List Nat := le 4 (xxhash32 e.body) ++ e.body

/-- Well-formed entry: the fields fit their encoded widths (timestamp in
`u32`, key length in `u16`, value length a `u32` below the tombstone
sentinel; for a tombstone the value condition is vacuous). -/
def Entry.wf (e : Entry) : Prop :=
  e.timestamp < M ∧ e.key.length < 65536 ∧ (e.value.getD []).length < SENTINEL

instance (e : Entry) : Decidable e.wf := by
  unfold Entry.wf
  exact inferInstance

/-- A compact index record (`data::Hint`): timestamp, key bytes, value size
(or tombstone sentinel), and the entry's byte offset within its data file. -/
structure Hint where
  timestamp : Nat
  key : List Nat
  valueSize : Nat
  entryPos : Nat
  deriving Repr, DecidableEq

/-- `Hint::new(&entry, pos)`: the hint derived from an entry and the data
file position the entry is written at. -/
def Hint.new (e : Entry) (pos : Nat) : Hint :=
  { timestamp := e.timestamp, key := e.key, valueSize := e.vcode, entryPos := pos }

/-- `Hint::from(entry, pos)` (the owning conversion used by
`RecreateHints::next`): same fields as `Hint::new`. -/
def Hint.fromEntry (e : Entry) (pos : Nat) : Hint := Hint.new e pos

/-- Encoding of a hint (`Hint::write_bytes`):
timestamp · key length · value size · value offset (8 bytes) · key. -/
def Hint.encode (h : Hint) : List Nat :=
  le 4 h.timestamp ++ le 2 h.key.length ++ le 4 h.valueSize ++ le 8 h.entryPos ++ h.key

/-- The (key, value size, value offset) projection of a hint that the spec's
hint-fidelity property compares. -/
def Hint.kvo (h : Hint) : List Nat × Nat × Nat := (h.key, h.valueSize, h.entryPos)

theorem Entry.encode_length (e : Entry) : e.encode.length = e.size := by
  simp [Entry.encode, Entry.body, Entry.size, le_length]
  omega

theorem Entry.size_pos (e : Entry) : 1 ≤ e.size := by
  unfold Entry.size
  omega

/-! ## Entry decoding (`Entry::from_read`)

Modelled from the spec: decoding consumes exactly the encoded length from a
bounded source, validates the checksum, and fails with a corruption signal
otherwise (§4.2).  `decodeEntry` returns the entry together with the number
of bytes consumed, or `none` on a structural or checksum failure. -/

/-- Split off exactly `n` leading bytes, failing if the source is shorter. -/
def takeExact (n : Nat) (bs : List Nat) : Option (List Nat × List Nat) :=
  if n ≤ bs.length then some (bs.take n, bs.drop n) else none

theorem takeExact_append (l r : List Nat) {n : Nat} (h : l.length = n) :
    takeExact n (l ++ r) = some (l, r) := by
  subst h
  simp [takeExact, List.take_left, List.drop_left]

/-- Decode one entry from the front of `bs`
(`Entry::from_read`, modelled from the spec). -/
def decodeEntry (bs : List Nat) : Option (Entry × Nat) :=
  match takeExact 4 bs with
  | none => none
  | some (ckB, r1) =>
    match takeExact 4 r1 with
    | none => none
    | some (tsB, r2) =>
      match takeExact 2 r2 with
      | none => none
      | some (klB, r3) =>
        match takeExact 4 r3 with
        | none => none
        | some (vlB, r4) =>
          match takeExact (leDec klB) r4 with
          | none => none
          | some (key, r5) =>
            if leDec vlB = SENTINEL then
              if leDec ckB = xxhash32 (tsB ++ klB ++ vlB ++ key) then
                some (⟨key, none, leDec tsB⟩, 14 + leDec klB)
              else none
            else
              match takeExact (leDec vlB) r5 with
              | none => none
              | some (val, _) =>
                if leDec ckB = xxhash32 (tsB ++ klB ++ vlB ++ key ++ val) then
                  some (⟨key, some val, leDec tsB⟩, 14 + leDec klB + leDec vlB)
                else none

theorem takeExact_eq {n : Nat} {bs a r : List Nat} (h : takeExact n bs = some (a, r)) :
    a.length = n ∧ bs = a ++ r := by
  unfold takeExact at h
  split at h
  · rename_i hle
    obtain ⟨rfl, rfl⟩ : bs.take n = a ∧ bs.drop n = r := by
      simpa using h
    exact ⟨by simpa using hle, (List.take_append_drop n bs).symm⟩
  · simp at h

/-- Decoding succeeds only by consuming between 14 bytes and the whole
source, and the consumed count is exactly the decoded entry's size. -/
theorem decodeEntry_size {bs : List Nat} {e : Entry} {n : Nat}
    (h : decodeEntry bs = some (e, n)) :
    n = e.size ∧ 14 ≤ n ∧ n ≤ bs.length := by
  unfold decodeEntry at h
  split at h
  · simp at h
  case h_2 ckB r1 hck =>
    split at h
    · simp at h
    case h_2 tsB r2 hts =>
      split at h
      · simp at h
      case h_2 klB r3 hkl =>
        split at h
        · simp at h
        case h_2 vlB r4 hvl =>
          split at h
          · simp at h
          case h_2 key r5 hkey =>
            obtain ⟨hck1, hck2⟩ := takeExact_eq hck
            obtain ⟨hts1, hts2⟩ := takeExact_eq hts
            obtain ⟨hkl1, hkl2⟩ := takeExact_eq hkl
            obtain ⟨hvl1, hvl2⟩ := takeExact_eq hvl
            obtain ⟨hkey1, hkey2⟩ := takeExact_eq hkey
            have hlen : bs.length = 14 + leDec klB + r5.length := by
              subst hck2 hts2 hkl2 hvl2 hkey2
              simp [List.length_append, hck1, hts1, hkl1, hvl1, hkey1]
              omega
            split at h
            · split at h
              · cases h
                refine ⟨by simp [Entry.size, Entry.valBytes, hkey1], by omega, by omega⟩
              · simp at h
            · split at h
              · simp at h
              case h_2 val r6 hval =>
                obtain ⟨hval1, hval2⟩ := takeExact_eq hval
                have hlen2 : r5.length = leDec vlB + r6.length := by
                  subst hval2
                  simp [List.length_append, hval1]
                split at h
                · cases h
                  refine ⟨by simp [Entry.size, Entry.valBytes, hkey1, hval1],
                          by omega, by omega⟩
                · simp at h

theorem M_eq_pow : M = 256 ^ 4 := by norm_num [M]

theorem leDec_le4 {n : Nat} (h : n < M) : leDec (le 4 n) = n :=
  leDec_le 4 n (M_eq_pow ▸ h)

/-- Round trip: decoding the encoding of a well-formed entry yields the
entry back and consumes exactly `Entry.size` bytes. -/
theorem decode_encode (e : Entry) (rest : List Nat) (hwf : e.wf) :
    decodeEntry (e.encode ++ rest) = some (e, e.size) := by
  obtain ⟨key, value, ts⟩ := e
  obtain ⟨hts, hkl, hvl⟩ := hwf
  dsimp only at hts hkl hvl
  have hck : takeExact 4 (Entry.encode ⟨key, value, ts⟩ ++ rest) =
      some (le 4 (xxhash32 (Entry.body ⟨key, value, ts⟩)),
            Entry.body ⟨key, value, ts⟩ ++ rest) := by
    rw [Entry.encode, List.append_assoc]
    exact takeExact_append _ _ (le_length _ _)
  have hbody : Entry.body ⟨key, value, ts⟩ ++ rest =
      le 4 ts ++ (le 2 key.length ++ (le 4 (Entry.vcode ⟨key, value, ts⟩) ++
        (key ++ (Entry.valBytes ⟨key, value, ts⟩ ++ rest)))) := by
    simp [Entry.body, List.append_assoc]
  have htsE : takeExact 4 (Entry.body ⟨key, value, ts⟩ ++ rest) =
      some (le 4 ts, le 2 key.length ++ (le 4 (Entry.vcode ⟨key, value, ts⟩) ++
        (key ++ (Entry.valBytes ⟨key, value, ts⟩ ++ rest)))) := by
    rw [hbody]
    exact takeExact_append _ _ (le_length _ _)
  have hklE : takeExact 2 (le 2 key.length ++ (le 4 (Entry.vcode ⟨key, value, ts⟩) ++
        (key ++ (Entry.valBytes ⟨key, value, ts⟩ ++ rest)))) =
      some (le 2 key.length, le 4 (Entry.vcode ⟨key, value, ts⟩) ++
        (key ++ (Entry.valBytes ⟨key, value, ts⟩ ++ rest))) :=
    takeExact_append _ _ (le_length _ _)
  have hvlE : takeExact 4 (le 4 (Entry.vcode ⟨key, value, ts⟩) ++
        (key ++ (Entry.valBytes ⟨key, value, ts⟩ ++ rest))) =
      some (le 4 (Entry.vcode ⟨key, value, ts⟩),
        key ++ (Entry.valBytes ⟨key, value, ts⟩ ++ rest)) :=
    takeExact_append _ _ (le_length _ _)
  have hkldec : leDec (le 2 key.length) = key.length :=
    leDec_le 2 _ (by norm_num; omega)
  have hkeyE : takeExact (leDec (le 2 key.length))
        (key ++ (Entry.valBytes ⟨key, value, ts⟩ ++ rest)) =
      some (key, Entry.valBytes ⟨key, value, ts⟩ ++ rest) := by
    rw [hkldec]
    exact takeExact_append _ _ rfl
  have htsdec : leDec (le 4 ts) = ts := leDec_le4 hts
  have hckdec : leDec (le 4 (xxhash32 (Entry.body ⟨key, value, ts⟩))) =
      xxhash32 (Entry.body ⟨key, value, ts⟩) := leDec_le4 (xxhash32_lt _)
  unfold decodeEntry
  rw [hck]
  dsimp only
  rw [htsE]
  dsimp only
  rw [hklE]
  dsimp only
  rw [hvlE]
  dsimp only
  rw [hkeyE]
  dsimp only
  cases value with
  | none =>
    have hvc : Entry.vcode ⟨key, none, ts⟩ = SENTINEL := rfl
    have hvb : Entry.valBytes ⟨key, none, ts⟩ = [] := rfl
    have hvldec : leDec (le 4 (Entry.vcode ⟨key, none, ts⟩)) = SENTINEL := by
      rw [hvc]
      exact leDec_le4 (by norm_num [SENTINEL, M])
    rw [hvldec, if_pos rfl, hckdec]
    have hbodyeq : le 4 ts ++ le 2 key.length ++ le 4 (Entry.vcode ⟨key, none, ts⟩) ++ key =
        Entry.body ⟨key, none, ts⟩ := by
      simp [Entry.body, hvb]
    rw [hbodyeq, if_pos rfl, htsdec, hkldec]
    simp [Entry.size, hvb]
  | some v =>
    have hvc : Entry.vcode ⟨key, some v, ts⟩ = v.length := rfl
    have hvb : Entry.valBytes ⟨key, some v, ts⟩ = v := rfl
    have hvldec : leDec (le 4 (Entry.vcode ⟨key, some v, ts⟩)) = v.length := by
      rw [hvc]
      refine leDec_le4 ?_
      simp only [Option.getD_some] at hvl
      calc v.length < SENTINEL := hvl
        _ < M := by norm_num [SENTINEL, M]
    have hvne : v.length ≠ SENTINEL := by
      simp only [Option.getD_some] at hvl
      omega
    rw [hvldec, if_neg hvne]
    have hvalE : takeExact v.length (Entry.valBytes ⟨key, some v, ts⟩ ++ rest) =
        some (v, rest) := by
      rw [hvb]
      exact takeExact_append _ _ rfl
    rw [hvalE]
    dsimp only
    rw [hckdec]
    have hbodyeq : le 4 ts ++ le 2 key.length ++ le 4 (Entry.vcode ⟨key, some v, ts⟩) ++ key ++ v =
        Entry.body ⟨key, some v, ts⟩ := by
      simp [Entry.body, hvb]
    rw [hbodyeq, if_pos rfl, htsdec, hkldec]
    simp [Entry.size, hvb]

/-! ## The `Entries` iterator (`log.rs`, `Entries` and `Log::entries`)

`Log::entries` opens the data file and wraps it in a `Take` bounded by the
file's length captured at the moment of the call.  We model the iterator
state by the not-yet-consumed bytes of that bounded source together with
the running `data_file_pos`. -/

/-- State of an `Entries` iterator: the remaining bytes of the
length-bounded data file, and the running position counter. -/
structure EntriesState where
  remaining : List Nat
  data_file_pos : Nat
  deriving Repr, DecidableEq

/-- `Log::entries(file_id)`: start reading the data file whose on-disk
bytes are `data`, bounded by its length, from position `0`. -/
def Log.entries (data : List Nat) : EntriesState :=
  { remaining := data, data_file_pos := 0 }

/-- Outcome of one `Entries::next` call: the iterator is exhausted
(`limit() == 0`), the decode of the next record fails (a panic in the
source), or a record is yielded. -/
inductive NextResult where
  | done
  | fail
  | yield (pos : Nat) (e : Entry) (s : EntriesState)
  deriving Repr, DecidableEq

/-- `Entries::next`: `None` once the `Take` limit is `0`; otherwise decode
one entry, advance `data_file_pos` by `entry.size()`, and yield the
pre-decode position with the entry. -/
def Entries.next (s : EntriesState) : NextResult :=
  if s.remaining.isEmpty then .done
  else
    match decodeEntry s.remaining with
    | none => .fail
    | some (e, n) =>
      .yield s.data_file_pos e
        { remaining := s.remaining.drop n, data_file_pos := s.data_file_pos + e.size }

theorem Entries.next_shrink {s : EntriesState} {p : Nat} {e : Entry} {s' : EntriesState}
    (h : Entries.next s = .yield p e s') :
    s'.remaining.length < s.remaining.length := by
  unfold Entries.next at h
  split at h
  · simp at h
  · rename_i hne
    split at h
    · simp at h
    · rename_i e' n hdec
      cases h
      have hlen := decodeEntry_size hdec
      have hpos : 0 < s.remaining.length := by
        cases hr : s.remaining with
        | nil => rw [hr] at hne; simp at hne
        | cons a l => simp [hr]
      simp only [List.length_drop]
      omega

/-- The whole (finite) sequence an `Entries` iterator yields, in order. -/
def entriesList (s : EntriesState) : List (Nat × Entry) :=
  match h : Entries.next s with
  | .done => []
  | .fail => []
  | .yield p e s' => (p, e) :: entriesList s'
termination_by s.remaining.length
decreasing_by exact Entries.next_shrink h

/-- The positions and entries of a data file holding the encodings of `es`
written one after another starting at offset `pos`. -/
def entriesWithPos (pos : Nat) : List Entry → List (Nat × Entry)
  | [] => []
  | e :: es => (pos, e) :: entriesWithPos (pos + e.size) es

theorem entriesList_done {s : EntriesState} (h : Entries.next s = .done) :
    entriesList s = [] := by
  rw [entriesList]
  split <;> simp_all

theorem entriesList_fail {s : EntriesState} (h : Entries.next s = .fail) :
    entriesList s = [] := by
  rw [entriesList]
  split <;> simp_all

theorem entriesList_yield {s : EntriesState} {p : Nat} {e : Entry} {s' : EntriesState}
    (h : Entries.next s = .yield p e s') :
    entriesList s = (p, e) :: entriesList s' := by
  rw [entriesList]
  split <;> simp_all

theorem Entry.encode_ne_nil (e : Entry) : e.encode ≠ [] := by
  intro h
  have h1 := Entry.encode_length e
  have h2 := Entry.size_pos e
  rw [h] at h1
  simp at h1
  omega

theorem Entries.next_encode (e : Entry) (tail : List Nat) (pos : Nat) (hwf : e.wf) :
    Entries.next ⟨e.encode ++ tail, pos⟩ = .yield pos e ⟨tail, pos + e.size⟩ := by
  unfold Entries.next
  dsimp only
  rw [if_neg (by simp [Entry.encode_ne_nil e]), decode_encode e tail hwf]
  dsimp only
  rw [List.drop_left' (Entry.encode_length e)]

theorem entriesList_nil (pos : Nat) : entriesList ⟨[], pos⟩ = [] :=
  entriesList_done (by simp [Entries.next])

theorem entriesList_flatten (es : List Entry) (pos : Nat) (hwf : ∀ e ∈ es, e.wf) :
    entriesList ⟨(es.map Entry.encode).flatten, pos⟩ = entriesWithPos pos es := by
  induction es generalizing pos with
  | nil => simpa [entriesWithPos] using entriesList_nil pos
  | cons e es ih =>
    have hewf : e.wf := hwf e (by simp)
    have hflat : (List.map Entry.encode (e :: es)).flatten =
        e.encode ++ (es.map Entry.encode).flatten := by simp
    rw [hflat,
      entriesList_yield (Entries.next_encode e ((es.map Entry.encode).flatten) pos hewf),
      entriesWithPos]
    exact congrArg _ (ih (pos + e.size) (fun x hx => hwf x (by simp [hx])))

/-! ## Hint files (`log.rs`: `is_valid_hint_file`, `Log::hints`)

A hint file on disk is modelled as `Option (List Nat)`: `none` when the
path is not a file, `some buf` for its byte contents. -/

/-- `is_valid_hint_file`: the path is a file, holds at least 4 bytes, and
its trailing 4 bytes, read as a little-endian `u32`, equal the 32-bit
checksum of all preceding bytes. -/
def is_valid_hint_file : Option (List Nat) → Bool
  | none => false
  | some buf =>
    decide (4 ≤ buf.length) &&
      decide (xxhash32 (buf.take (buf.length - 4)) = leDec (buf.drop (buf.length - 4)))

/-- `Log::hints(file_id)`: `Some` of a hint iterator over the file taken up
to `size - 4` bytes when the hint file is valid, `None` otherwise.  The
returned iterator is modelled by its bounded byte source: the payload bytes
it is allowed to decode. -/
def Log.hints (hintFile : Option (List Nat)) : Option (List Nat) :=
  if is_valid_hint_file hintFile then
    hintFile.map (fun buf => buf.take (buf.length - 4))
  else
    none

/-! ## The `Log` segment manager state (`log.rs`, `struct Log`)

On-disk state is carried inside the structure: `active_data` and
`active_hint` are the byte contents of the active segment's files (the
write handle's position is their length), and `sealed` holds the files of
segments rotated out during this run, as (id, data bytes, hint bytes),
oldest first.  The lock file and paths live in `World` below. -/

/-- The default segment size threshold (`DEFAULT_SIZE_THRESHOLD`),
100 MiB. -/
def DEFAULT_SIZE_THRESHOLD : Nat := 100 * 1024 * 1024

/-- The `Log` struct of `log.rs`. -/
structure Log where
  sync : Bool
  size_threshold : Nat
  files : List Nat
  current_file_id : Nat
  active_data : List Nat
  active_hint : List Nat
  active_hint_file_hasher : Nat
  sealed : List (Nat × List Nat × List Nat)
  deriving Repr, DecidableEq

/-- `Log::close_active_file`: finalize the running hint checksum and append
it to the active hint file as 4 little-endian bytes.  (The `sync_data`
call is a no-op in this model.) -/
def Log.close_active_file (s : Log) : Log :=
  { s with active_hint := s.active_hint ++ le 4 s.active_hint_file_hasher }

/-- `Log::new_active_file`: take `now` (the current time in whole seconds)
as the new segment id and open fresh, empty active data and hint files with
a fresh hasher.  The previous active segment's files remain on disk, which
the model records by appending them to `sealed`. -/
def Log.new_active_file (s : Log) (now : Nat) : Log :=
  { s with
    sealed := s.sealed ++ [(s.current_file_id, s.active_data, s.active_hint)],
    current_file_id := now % M,
    active_data := [],
    active_hint := [],
    active_hint_file_hasher := XxHash32.new }

/-- `Log::write_entry`: read the active data file's position; if it plus
the entry's encoded size exceeds the size threshold, seal the active
segment and open a new one (resetting the position to 0); derive the hint
at the pre-write position; append the entry bytes to the data file and the
hint bytes to both the hint file and the running hasher; return the current
file id and the pre-write position. -/
def Log.write_entry (s : Log) (now : Nat) (e : Entry) : (Nat × Nat) × Log :=
  let pos := s.active_data.length
  let (s, pos) :=
    if s.size_threshold < pos + e.size
    then ((s.close_active_file).new_active_file now, 0)
    else (s, pos)
  let hint := Hint.new e pos
  let s := { s with
    active_data := s.active_data ++ e.encode,
    active_hint := s.active_hint ++ hint.encode,
    active_hint_file_hasher := XxHash32.write s.active_hint_file_hasher hint.encode }
  ((s.current_file_id, pos), s)

/-- A sequence of `write_entry` calls, each with the clock value observed
at that call. -/
def Log.write_all (s : Log) (ws : List (Nat × Entry)) : Log :=
  ws.foldl (fun s w => (s.write_entry w.1 w.2).2) s

/-! ## Directory scan and `Log::open` (`log.rs`: `find_data_files`,
`Log::open`)

File names are modelled structurally: the names this program creates and
matches are `<id>.cask.data`, `<id>.cask.hint` and `cask.lock`; anything
else is `other`.  `get_file_handle(path, true)` (from the missing
`util.rs`) is modelled from the spec as opening a fresh file for append
(§4.1: "opening fresh data and hint file handles for append"). -/

/-- A file name in the storage directory. -/
inductive FName where
  | dataF (id : Nat)
  | hintF (id : Nat)
  | lockF
  | other (tag : Nat)
  deriving Repr, DecidableEq

/-- The filesystem state around the log: whether the storage directory
exists, its entries (name, `is_file` flag), and whether the directory lock
is already held by another process. -/
structure World where
  dirExists : Bool
  dirFiles : List (FName × Bool)
  locked : Bool
  deriving Repr, DecidableEq

/-- `find_data_files`: scan the directory entries, keep regular files whose
name matches `(\d+).cask.data` with the digits parsing as a `u32`, and
return the ids sorted ascending. -/
def find_data_files (entries : List (FName × Bool)) : List Nat :=
  List.insertionSort (· ≤ ·)
    (entries.filterMap (fun f =>
      if f.2 then
        match f.1 with
        | .dataF id => if id < M then some id else none
        | _ => none
      else none))

/-- Failures of `Log::open` that the source raises by `unwrap` panics. -/
inductive OpenError where
  | lockHeld
  deriving Repr, DecidableEq

/-- `Log::open(path, sync)`: create the directory if absent; create the
lock file and take the exclusive lock, failing if it is already held; scan
for existing data files; create the active segment with id `now` (the
current time in seconds) as `u32`, with fresh data and hint files and a
fresh hasher; the size threshold is the default. -/
def Log.open (now : Nat) (sync : Bool) (w : World) : Except OpenError (Log × World) :=
  let w := if w.dirExists then w else { w with dirExists := true, dirFiles := [] }
  let w := { w with dirFiles := w.dirFiles ++ [(FName.lockF, true)] }
  if w.locked then .error .lockHeld
  else
    let files := find_data_files w.dirFiles
    let id := now % M
    let w := { w with
      locked := true,
      dirFiles := w.dirFiles ++ [(FName.dataF id, true), (FName.hintF id, true)] }
    .ok ({ sync := sync,
           size_threshold := DEFAULT_SIZE_THRESHOLD,
           files := files,
           current_file_id := id,
           active_data := [],
           active_hint := [],
           active_hint_file_hasher := XxHash32.new,
           sealed := [] }, w)

/-! ## Hint reconstruction (`log.rs`: `RecreateHints`,
`Log::recreate_hints`, `impl Drop for RecreateHints`) -/

/-- State of a `RecreateHints` iterator: the bytes written so far to the
freshly truncated hint file, the running hasher, and the underlying
`Entries` iterator over the segment's data file. -/
structure RecreateHints where
  hint_file : List Nat
  hint_file_hasher : Nat
  entries : EntriesState
  deriving Repr, DecidableEq

/-- `Log::recreate_hints(file_id)`: truncate the hint file, start a fresh
hasher, and wrap `entries(file_id)` over the data file's bytes `data`. -/
def Log.recreate_hints (data : List Nat) : RecreateHints :=
  { hint_file := [], hint_file_hasher := XxHash32.new, entries := Log.entries data }

/-- Outcome of one `RecreateHints::next` call. -/
inductive RHNext where
  | done
  | fail
  | yield (h : Hint) (r : RecreateHints)
  deriving Repr, DecidableEq

/-- `RecreateHints::next`: pull the next entry, derive its hint, write the
hint's bytes to the hint file and fold them into the hasher, and yield the
hint. -/
def RecreateHints.next (r : RecreateHints) : RHNext :=
  match Entries.next r.entries with
  | .done => .done
  | .fail => .fail
  | .yield pos e s' =>
    let h := Hint.fromEntry e pos
    .yield h
      { hint_file := r.hint_file ++ h.encode,
        hint_file_hasher := XxHash32.write r.hint_file_hasher h.encode,
        entries := s' }

theorem RecreateHints.rhNext_shrink {r : RecreateHints} {h : Hint} {r' : RecreateHints}
    (hy : RecreateHints.next r = .yield h r') :
    r'.entries.remaining.length < r.entries.remaining.length := by
  unfold RecreateHints.next at hy
  split at hy
  · simp at hy
  · simp at hy
  · rename_i pos e s' hn
    cases hy
    exact Entries.next_shrink hn

/-- `k` calls of `RecreateHints::next` by the consumer (extra calls past
exhaustion change nothing). -/
def RecreateHints.steps : Nat → RecreateHints → RecreateHints
  | 0, r => r
  | k + 1, r =>
    match r.next with
    | .yield _ r' => RecreateHints.steps k r'
    | _ => r

/-- The drain loop `while self.next().is_some() {}` in
`Drop for RecreateHints`; `error` marks the panic of a failing decode. -/
def RecreateHints.drain (r : RecreateHints) : Except Unit RecreateHints :=
  match hy : r.next with
  | .done => .ok r
  | .fail => .error ()
  | .yield _ r' => RecreateHints.drain r'
termination_by r.entries.remaining.length
decreasing_by exact RecreateHints.rhNext_shrink hy

/-- `Drop for RecreateHints`: drain the remaining entries, then append the
finalized running checksum as 4 trailing bytes.  Returns the final hint
file contents. -/
def RecreateHints.dropRun (r : RecreateHints) : Except Unit (List Nat) :=
  (RecreateHints.drain r).map (fun r' => r'.hint_file ++ le 4 r'.hint_file_hasher)

/-- The hints written live by a sequence of `write_entry` appends into one
segment, starting at data-file position `pos`: one `Hint::new` per entry at
its pre-write offset. -/
def liveHints (pos : Nat) : List Entry → List Hint
  | [] => []
  | e :: es => Hint.new e pos :: liveHints (pos + e.size) es

/-- Total encoded size of a batch of entries. -/
def sizeSum (es : List Entry) : Nat := (es.map Entry.size).sum

/-! ## Behaviour of `write_entry` -/

/-- A `write_entry` call that does not trip the rotation check appends the
entry and its hint to the active files and returns the pre-write offset. -/
theorem write_entry_no_rotate (s : Log) (now : Nat) (e : Entry)
    (h : s.active_data.length + e.size ≤ s.size_threshold) :
    s.write_entry now e =
      ((s.current_file_id, s.active_data.length),
       { s with
         active_data := s.active_data ++ e.encode,
         active_hint := s.active_hint ++ (Hint.new e s.active_data.length).encode,
         active_hint_file_hasher :=
           XxHash32.write s.active_hint_file_hasher
             (Hint.new e s.active_data.length).encode }) := by
  unfold Log.write_entry
  dsimp only
  rw [if_neg (by omega)]

/-- A `write_entry` call that trips the rotation check seals the active
segment, opens a new one with id `now % 2^32`, writes at offset 0 there,
and returns the new id with offset 0. -/
theorem write_entry_rotate (s : Log) (now : Nat) (e : Entry)
    (h : s.size_threshold < s.active_data.length + e.size) :
    s.write_entry now e =
      ((now % M, 0),
       { sync := s.sync,
         size_threshold := s.size_threshold,
         files := s.files,
         current_file_id := now % M,
         active_data := e.encode,
         active_hint := (Hint.new e 0).encode,
         active_hint_file_hasher := XxHash32.write XxHash32.new (Hint.new e 0).encode,
         sealed := s.sealed ++
           [(s.current_file_id, s.active_data,
             s.active_hint ++ le 4 s.active_hint_file_hasher)] }) := by
  unfold Log.write_entry
  dsimp only
  rw [if_pos h]
  simp [Log.close_active_file, Log.new_active_file]

/-- When no write in the batch trips the rotation check, the whole batch
lands in the active segment: the data file gains the concatenated entry
encodings, the hint file gains the concatenated live-hint encodings, and
the hasher absorbs exactly the hint bytes. -/
theorem write_all_no_rotate (ws : List (Nat × Entry)) (s : Log)
    (h : s.active_data.length + sizeSum (ws.map Prod.snd) ≤ s.size_threshold) :
    Log.write_all s ws = { s with
      active_data := s.active_data ++ ((ws.map Prod.snd).map Entry.encode).flatten,
      active_hint := s.active_hint ++
        ((liveHints s.active_data.length (ws.map Prod.snd)).map Hint.encode).flatten,
      active_hint_file_hasher := XxHash32.write s.active_hint_file_hasher
        ((liveHints s.active_data.length (ws.map Prod.snd)).map Hint.encode).flatten } := by
  induction ws generalizing s with
  | nil => simp [Log.write_all, liveHints, XxHash32.write]
  | cons w ws ih =>
    have hsz : s.active_data.length + w.2.size ≤ s.size_threshold := by
      simp only [List.map_cons, sizeSum, List.sum_cons] at h
      omega
    have hstep := write_entry_no_rotate s w.1 w.2 hsz
    unfold Log.write_all
    rw [List.foldl_cons]
    show Log.write_all ((s.write_entry w.1 w.2).2) ws = _
    rw [hstep]
    have hlen : (s.active_data ++ w.2.encode).length = s.active_data.length + w.2.size := by
      simp [List.length_append, Entry.encode_length]
    have hrec := ih ({ s with
         active_data := s.active_data ++ w.2.encode,
         active_hint := s.active_hint ++ (Hint.new w.2 s.active_data.length).encode,
         active_hint_file_hasher :=
           XxHash32.write s.active_hint_file_hasher
             (Hint.new w.2 s.active_data.length).encode })
      (by
        simp only [List.map_cons, sizeSum, List.sum_cons] at h
        simp only [hlen]
        simp only [sizeSum] at h ⊢
        omega)
    rw [hrec]
    simp only [hlen, List.map_cons, List.flatten_cons, liveHints]
    simp [List.append_assoc, XxHash32.write_append]

/-! ## C2 and C3 -/

/-- C2: `hints(file_id)` returns `Some` exactly when the hint file exists,
is at least 4 bytes long, and its trailing 4 bytes read as a little-endian
`u32` equal the 32-bit checksum of all preceding bytes; the returned
iterator is bounded to exactly the payload bytes (all bytes but the
trailing 4).  In every other case the function's `Option` result is `none`
— the source returns `Option`, not `Result`, so no error is signalled. -/
theorem hints_valid_iff (hf : Option (List Nat)) (s : List Nat) :
    Log.hints hf = some s ↔
      ∃ buf, hf = some buf ∧ 4 ≤ buf.length ∧
        leDec (buf.drop (buf.length - 4)) = xxhash32 (buf.take (buf.length - 4)) ∧
        s = buf.take (buf.length - 4) := by
  cases hf with
  | none => simp [Log.hints, is_valid_hint_file]
  | some buf =>
    unfold Log.hints is_valid_hint_file
    by_cases h4 : 4 ≤ buf.length
    · by_cases hck : xxhash32 (buf.take (buf.length - 4)) = leDec (buf.drop (buf.length - 4))
      · simp [h4, hck, eq_comm]
      · have : ¬ leDec (buf.drop (buf.length - 4)) = xxhash32 (buf.take (buf.length - 4)) :=
          fun h => hck h.symm
        simp [h4, hck, this]
    · simp [h4]

/-- The behaviour C3 ascribes to `appendEntry`, written from the claim's
words: when the current position plus the entry's encoded size exceeds the
threshold, the sealed segment (hint finalized with 4 trailing checksum
bytes) moves aside, a segment with id `now` (as `u32`) opens, and the entry
and hint bytes land at offset 0 of the fresh files; otherwise they are
appended in place; the returned pair is the current segment id and the
offset immediately before the entry bytes. -/
def appendEntrySpec (s : Log) (now : Nat) (e : Entry) : (Nat × Nat) × Log :=
  if s.active_data.length + e.size > s.size_threshold then
    ((now % M, 0),
     { sync := s.sync,
       size_threshold := s.size_threshold,
       files := s.files,
       current_file_id := now % M,
       active_data := e.encode,
       active_hint := (Hint.new e 0).encode,
       active_hint_file_hasher := XxHash32.write XxHash32.new (Hint.new e 0).encode,
       sealed := s.sealed ++
         [(s.current_file_id, s.active_data,
           s.active_hint ++ le 4 s.active_hint_file_hasher)] })
  else
    ((s.current_file_id, s.active_data.length),
     { s with
       active_data := s.active_data ++ e.encode,
       active_hint := s.active_hint ++ (Hint.new e s.active_data.length).encode,
       active_hint_file_hasher := XxHash32.write s.active_hint_file_hasher
         (Hint.new e s.active_data.length).encode })

/-- C3: `write_entry` behaves exactly as the claim describes
(`appendEntrySpec`), and the default size threshold is
100 MiB = 100·1024·1024 bytes. -/
theorem write_entry_meets_spec :
    (∀ (s : Log) (now : Nat) (e : Entry), s.write_entry now e = appendEntrySpec s now e) ∧
    DEFAULT_SIZE_THRESHOLD = 100 * 1024 * 1024 := by
  refine ⟨fun s now e => ?_, rfl⟩
  by_cases h : s.size_threshold < s.active_data.length + e.size
  · rw [write_entry_rotate s now e h]
    unfold appendEntrySpec
    rw [if_pos (by omega)]
  · rw [write_entry_no_rotate s now e (by omega)]
    unfold appendEntrySpec
    rw [if_neg (by omega)]

/-! ## The sequence yielded by `RecreateHints`, and C1 -/

/-- All hints a `RecreateHints` iterator yields, in order. -/
def rhList (r : RecreateHints) : List Hint :=
  match hy : r.next with
  | .done => []
  | .fail => []
  | .yield h r' => h :: rhList r'
termination_by r.entries.remaining.length
decreasing_by exact RecreateHints.rhNext_shrink hy

theorem rhList_done {r : RecreateHints} (h : r.next = .done) : rhList r = [] := by
  rw [rhList]
  split <;> simp_all

theorem rhList_fail {r : RecreateHints} (h : r.next = .fail) : rhList r = [] := by
  rw [rhList]
  split <;> simp_all

theorem rhList_yield {r : RecreateHints} {h : Hint} {r' : RecreateHints}
    (hy : r.next = .yield h r') : rhList r = h :: rhList r' := by
  rw [rhList]
  split <;> simp_all

/-- The hints yielded depend only on the underlying entries: one
`Hint::from` per yielded entry, at its yielded position. -/
theorem rhList_eq_entries (r : RecreateHints) :
    rhList r = (entriesList r.entries).map (fun pe => Hint.fromEntry pe.2 pe.1) := by
  generalize hn : r.entries.remaining.length = n
  induction n using Nat.strong_induction_on generalizing r with
  | _ n ih =>
    cases hnext : Entries.next r.entries with
    | done =>
      rw [rhList_done (by unfold RecreateHints.next; rw [hnext]),
        entriesList_done hnext]
      rfl
    | fail =>
      rw [rhList_fail (by unfold RecreateHints.next; rw [hnext]),
        entriesList_fail hnext]
      rfl
    | yield p e s' =>
      have hy : r.next = .yield (Hint.fromEntry e p)
          { hint_file := r.hint_file ++ (Hint.fromEntry e p).encode,
            hint_file_hasher := XxHash32.write r.hint_file_hasher (Hint.fromEntry e p).encode,
            entries := s' } := by
        unfold RecreateHints.next
        rw [hnext]
      rw [rhList_yield hy, entriesList_yield hnext, List.map_cons]
      have hlt : s'.remaining.length < n := hn ▸ Entries.next_shrink hnext
      exact congrArg _ (ih s'.remaining.length hlt _ rfl)

theorem entriesWithPos_map_hint (es : List Entry) (pos : Nat) :
    (entriesWithPos pos es).map (fun pe => Hint.fromEntry pe.2 pe.1) = liveHints pos es := by
  induction es generalizing pos with
  | nil => rfl
  | cons e es ih =>
    simp only [entriesWithPos, List.map_cons, liveHints]
    rw [ih]
    rfl

/-- C1: for a segment whose data file holds a batch of entries appended via
`write_entry` (all landing in this one segment), the hint sequence yielded
by `recreate_hints` over that data file carries the same
(key, value size, value offset) triples, in the same order, as the hints
written live during the appends; the first conjunct pins the live hints
down as exactly what `write_entry` put in the active hint file. -/
theorem hint_fidelity (ws : List (Nat × Entry)) (s0 : Log)
    (hwf : ∀ w ∈ ws, Entry.wf w.2)
    (hd : s0.active_data = []) (hh : s0.active_hint = [])
    (hz : s0.active_hint_file_hasher = XxHash32.new)
    (hsz : sizeSum (ws.map Prod.snd) ≤ s0.size_threshold) :
    (Log.write_all s0 ws).active_hint =
      ((liveHints 0 (ws.map Prod.snd)).map Hint.encode).flatten ∧
    (rhList (Log.recreate_hints (Log.write_all s0 ws).active_data)).map Hint.kvo =
      (liveHints 0 (ws.map Prod.snd)).map Hint.kvo := by
  have hfold := write_all_no_rotate ws s0 (by rw [hd]; simpa using hsz)
  have hdata : (Log.write_all s0 ws).active_data =
      ((ws.map Prod.snd).map Entry.encode).flatten := by
    rw [hfold, hd]
    rfl
  have hhint : (Log.write_all s0 ws).active_hint =
      ((liveHints 0 (ws.map Prod.snd)).map Hint.encode).flatten := by
    rw [hfold, hh, hd]
    rfl
  refine ⟨hhint, ?_⟩
  rw [hdata]
  have hwf' : ∀ e ∈ ws.map Prod.snd, e.wf := by
    intro e he
    obtain ⟨w, hw, rfl⟩ := List.mem_map.mp he
    exact hwf w hw
  have : rhList (Log.recreate_hints ((List.map Prod.snd ws).map Entry.encode).flatten) =
      liveHints 0 (ws.map Prod.snd) := by
    rw [rhList_eq_entries]
    show (entriesList ⟨((ws.map Prod.snd).map Entry.encode).flatten, 0⟩).map _ = _
    rw [entriesList_flatten _ _ hwf', entriesWithPos_map_hint]
  rw [this]

/-- Witness for C1 at a one-entry batch. -/
theorem hint_fidelity_witness :
    (∀ w ∈ [((7 : Nat), Entry.mk [1] (some [2, 3]) 4)], Entry.wf w.2) ∧
    sizeSum ([((7 : Nat), Entry.mk [1] (some [2, 3]) 4)].map Prod.snd) ≤
      DEFAULT_SIZE_THRESHOLD ∧
    ((Log.write_all ⟨false, DEFAULT_SIZE_THRESHOLD, [], 5, [], [], 0, []⟩
        [((7 : Nat), Entry.mk [1] (some [2, 3]) 4)]).active_hint =
      ((liveHints 0 ([((7 : Nat), Entry.mk [1] (some [2, 3]) 4)].map Prod.snd)).map
        Hint.encode).flatten ∧
    (rhList (Log.recreate_hints
        (Log.write_all ⟨false, DEFAULT_SIZE_THRESHOLD, [], 5, [], [], 0, []⟩
          [((7 : Nat), Entry.mk [1] (some [2, 3]) 4)]).active_data)).map Hint.kvo =
      (liveHints 0 ([((7 : Nat), Entry.mk [1] (some [2, 3]) 4)].map Prod.snd)).map Hint.kvo) :=
  ⟨by decide, by decide,
   hint_fidelity [((7 : Nat), Entry.mk [1] (some [2, 3]) 4)]
     ⟨false, DEFAULT_SIZE_THRESHOLD, [], 5, [], [], 0, []⟩
     (by decide) rfl rfl rfl (by decide)⟩

/-! ## Draining `RecreateHints` (the `Drop` impl), C6 and C10 -/

theorem RecreateHints.drain_done {r : RecreateHints} (h : r.next = .done) :
    RecreateHints.drain r = .ok r := by
  rw [RecreateHints.drain]
  split <;> simp_all

theorem RecreateHints.drain_yield {r : RecreateHints} {h : Hint} {r' : RecreateHints}
    (hy : r.next = .yield h r') :
    RecreateHints.drain r = RecreateHints.drain r' := by
  rw [RecreateHints.drain]
  split <;> simp_all

theorem liveHints_append (as bs : List Entry) (pos : Nat) :
    liveHints pos (as ++ bs) = liveHints pos as ++ liveHints (pos + sizeSum as) bs := by
  induction as generalizing pos with
  | nil => simp [liveHints, sizeSum]
  | cons a as ih =>
    have h1 : liveHints pos ((a :: as) ++ bs) =
        Hint.new a pos :: liveHints (pos + a.size) (as ++ bs) := rfl
    have h2 : liveHints pos (a :: as) = Hint.new a pos :: liveHints (pos + a.size) as := rfl
    rw [h1, ih, h2, List.cons_append]
    have h3 : pos + a.size + sizeSum as = pos + sizeSum (a :: as) := by
      simp [sizeSum]
      omega
    rw [h3]

/-- One `RecreateHints::next` on a data file opening with a well-formed
encoded entry. -/
theorem RecreateHints.rhNext_encode (hf : List Nat) (hh : Nat) (e : Entry) (tail : List Nat)
    (pos : Nat) (hwf : e.wf) :
    RecreateHints.next ⟨hf, hh, ⟨e.encode ++ tail, pos⟩⟩ =
      .yield (Hint.fromEntry e pos)
        ⟨hf ++ (Hint.fromEntry e pos).encode,
         XxHash32.write hh (Hint.fromEntry e pos).encode,
         ⟨tail, pos + e.size⟩⟩ := by
  unfold RecreateHints.next
  rw [show (⟨hf, hh, ⟨e.encode ++ tail, pos⟩⟩ : RecreateHints).entries = ⟨e.encode ++ tail, pos⟩
    from rfl, Entries.next_encode e tail pos hwf]

/-- Draining a `RecreateHints` whose remaining data is a concatenation of
well-formed encoded entries writes one hint per remaining entry and
succeeds. -/
theorem RecreateHints.drain_flatten (es : List Entry) (hf : List Nat) (hh pos : Nat)
    (hwf : ∀ e ∈ es, e.wf) :
    RecreateHints.drain ⟨hf, hh, ⟨(es.map Entry.encode).flatten, pos⟩⟩ =
      .ok ⟨hf ++ ((liveHints pos es).map Hint.encode).flatten,
           XxHash32.write hh ((liveHints pos es).map Hint.encode).flatten,
           ⟨[], pos + sizeSum es⟩⟩ := by
  induction es generalizing hf hh pos with
  | nil =>
    rw [RecreateHints.drain_done (by unfold RecreateHints.next; simp [Entries.next])]
    simp [liveHints, sizeSum, XxHash32.write]
  | cons e es ih =>
    have hflat : (List.map Entry.encode (e :: es)).flatten =
        e.encode ++ (es.map Entry.encode).flatten := by simp
    rw [hflat, RecreateHints.drain_yield
      (RecreateHints.rhNext_encode hf hh e ((es.map Entry.encode).flatten) pos (hwf e (by simp))),
      ih _ _ _ (fun x hx => hwf x (by simp [hx]))]
    simp only [liveHints, List.map_cons, List.flatten_cons, Hint.fromEntry]
    rw [XxHash32.write_append]
    have hsz : pos + e.size + sizeSum es = pos + sizeSum (e :: es) := by
      simp [sizeSum]
      omega
    rw [List.append_assoc, hsz]

/-- `steps k` over a data file of `k` or more well-formed encoded entries
consumes the first `min k (es.length)` of them, writing their hints. -/
theorem RecreateHints.steps_flatten (k : Nat) (es : List Entry) (hf : List Nat) (hh pos : Nat)
    (hwf : ∀ e ∈ es, e.wf) :
    RecreateHints.steps k ⟨hf, hh, ⟨(es.map Entry.encode).flatten, pos⟩⟩ =
      ⟨hf ++ ((liveHints pos (es.take k)).map Hint.encode).flatten,
       XxHash32.write hh ((liveHints pos (es.take k)).map Hint.encode).flatten,
       ⟨((es.drop k).map Entry.encode).flatten, pos + sizeSum (es.take k)⟩⟩ := by
  induction k generalizing es hf hh pos with
  | zero => simp [RecreateHints.steps, liveHints, sizeSum, XxHash32.write]
  | succ k ih =>
    cases es with
    | nil =>
      show RecreateHints.steps (k + 1) ⟨hf, hh, ⟨[], pos⟩⟩ = _
      unfold RecreateHints.steps
      rw [show RecreateHints.next ⟨hf, hh, ⟨[], pos⟩⟩ = .done by
        unfold RecreateHints.next; simp [Entries.next]]
      simp [liveHints, sizeSum, XxHash32.write]
    | cons e es =>
      have hflat : (List.map Entry.encode (e :: es)).flatten =
          e.encode ++ (es.map Entry.encode).flatten := by simp
      rw [hflat]
      unfold RecreateHints.steps
      rw [RecreateHints.rhNext_encode hf hh e ((es.map Entry.encode).flatten) pos (hwf e (by simp))]
      dsimp only
      rw [ih es _ _ _ (fun x hx => hwf x (by simp [hx]))]
      simp only [List.take_succ_cons, List.drop_succ_cons, liveHints, List.map_cons,
        List.flatten_cons, Hint.fromEntry]
      simp only [RecreateHints.mk.injEq, EntriesState.mk.injEq]
      refine ⟨by rw [List.append_assoc], by rw [XxHash32.write_append], trivial, ?_⟩
      have : sizeSum (e :: es.take k) = e.size + sizeSum (es.take k) := by
        simp [sizeSum]
      omega

theorem XxHash32.write_new (bs : List Nat) : XxHash32.write XxHash32.new bs = xxhash32 bs := rfl

/-- A byte string of the form payload · 4-byte little-endian checksum of the
payload validates as a hint file. -/
theorem is_valid_checksummed (P : List Nat) :
    is_valid_hint_file (some (P ++ le 4 (xxhash32 P))) = true := by
  unfold is_valid_hint_file
  dsimp only
  have hlen : (P ++ le 4 (xxhash32 P)).length = P.length + 4 := by
    simp [le_length]
  have hsub : (P ++ le 4 (xxhash32 P)).length - 4 = P.length := by
    omega
  rw [hsub, List.take_left, List.drop_left]
  simp [leDec_le4 (xxhash32_lt P), hlen]

/-- The hint list a full rebuild derives from a data file: one
`Hint::from` per entry the `Entries` iterator yields, in data-file order. -/
def rebuiltHints (data : List Nat) : List Hint :=
  (entriesList (Log.entries data)).map (fun pe => Hint.fromEntry pe.2 pe.1)

/-- The bytes a completed rebuild leaves in the hint file: the encodings of
`rebuiltHints`, then the finalized checksum as 4 trailing bytes. -/
def rebuiltHintFile (data : List Nat) : List Nat :=
  ((rebuiltHints data).map Hint.encode).flatten ++
    le 4 (xxhash32 (((rebuiltHints data).map Hint.encode).flatten))

/-- Splitting a consumed prefix of `k` entries off the hint payload. -/
theorem liveHints_take_drop (es : List Entry) (k : Nat) :
    ((liveHints 0 es).map Hint.encode).flatten =
      ((liveHints 0 (es.take k)).map Hint.encode).flatten ++
      ((liveHints (0 + sizeSum (es.take k)) (es.drop k)).map Hint.encode).flatten := by
  conv_lhs => rw [← List.take_append_drop k es]
  rw [liveHints_append]
  simp

/-- C10: however many elements `k` the caller consumed before abandoning
the iterator, dropping it completes the rebuild: the final hint file holds
exactly one hint per entry of the data file, in data-file order, followed
by a checksum that validates. -/
theorem recreate_hints_drop_completes (k : Nat) (es : List Entry) (hwf : ∀ e ∈ es, e.wf) :
    RecreateHints.dropRun
        (RecreateHints.steps k (Log.recreate_hints ((es.map Entry.encode).flatten))) =
      .ok (rebuiltHintFile ((es.map Entry.encode).flatten)) ∧
    is_valid_hint_file (some (rebuiltHintFile ((es.map Entry.encode).flatten))) = true := by
  have hrh : rebuiltHints ((es.map Entry.encode).flatten) = liveHints 0 es := by
    unfold rebuiltHints
    show (entriesList ⟨(es.map Entry.encode).flatten, 0⟩).map _ = _
    rw [entriesList_flatten es 0 hwf, entriesWithPos_map_hint]
  have hfile : rebuiltHintFile ((es.map Entry.encode).flatten) =
      ((liveHints 0 es).map Hint.encode).flatten ++
        le 4 (xxhash32 (((liveHints 0 es).map Hint.encode).flatten)) := by
    unfold rebuiltHintFile
    rw [hrh]
  have hshow : Log.recreate_hints ((es.map Entry.encode).flatten) =
      ⟨[], XxHash32.new, ⟨(es.map Entry.encode).flatten, 0⟩⟩ := rfl
  rw [hshow, RecreateHints.steps_flatten k es [] XxHash32.new 0 hwf]
  unfold RecreateHints.dropRun
  rw [RecreateHints.drain_flatten (es.drop k) _ _ _
    (fun x hx => hwf x (List.mem_of_mem_drop hx))]
  have hA : ([] ++ ((liveHints 0 (es.take k)).map Hint.encode).flatten) ++
      ((liveHints (0 + sizeSum (es.take k)) (es.drop k)).map Hint.encode).flatten =
      ((liveHints 0 es).map Hint.encode).flatten := by
    rw [List.nil_append, ← liveHints_take_drop]
  have hB : XxHash32.write
      (XxHash32.write XxHash32.new ((liveHints 0 (es.take k)).map Hint.encode).flatten)
      ((liveHints (0 + sizeSum (es.take k)) (es.drop k)).map Hint.encode).flatten =
      xxhash32 (((liveHints 0 es).map Hint.encode).flatten) := by
    rw [← XxHash32.write_append, XxHash32.write_new, ← liveHints_take_drop]
  refine ⟨?_, by rw [hfile]; exact is_valid_checksummed _⟩
  show Except.ok (_ ++ le 4 _) = _
  rw [hA, hB, hfile]

/-- C6: before the drop, `next` writes only hint encodings to the hint file
(no checksum bytes); the drop's drain-then-finalize appends the finalized
running checksum as the trailing 4 bytes exactly once, whether the caller
consumed `k = 0`, some, or all of the sequence — the final file is the
full hint payload followed by exactly one 4-byte checksum, independent of
`k`. -/
theorem recreate_hints_finalize_once (k : Nat) (es : List Entry) (hwf : ∀ e ∈ es, e.wf) :
    (RecreateHints.steps k (Log.recreate_hints ((es.map Entry.encode).flatten))).hint_file =
      ((liveHints 0 (es.take k)).map Hint.encode).flatten ∧
    RecreateHints.dropRun
        (RecreateHints.steps k (Log.recreate_hints ((es.map Entry.encode).flatten))) =
      .ok (((liveHints 0 es).map Hint.encode).flatten ++
           le 4 (xxhash32 (((liveHints 0 es).map Hint.encode).flatten))) := by
  have hshow : Log.recreate_hints ((es.map Entry.encode).flatten) =
      ⟨[], XxHash32.new, ⟨(es.map Entry.encode).flatten, 0⟩⟩ := rfl
  constructor
  · rw [hshow, RecreateHints.steps_flatten k es [] XxHash32.new 0 hwf]
    simp
  · rw [hshow, RecreateHints.steps_flatten k es [] XxHash32.new 0 hwf]
    unfold RecreateHints.dropRun
    rw [RecreateHints.drain_flatten (es.drop k) _ _ _
      (fun x hx => hwf x (List.mem_of_mem_drop hx))]
    show Except.ok (_ ++ le 4 _) = _
    rw [List.nil_append, ← XxHash32.write_append, XxHash32.write_new,
      ← liveHints_take_drop]

/-- Witness for C10 with one consumed element of a two-entry file. -/
theorem recreate_hints_drop_completes_witness :
    (∀ e ∈ [Entry.mk [1] (some [2]) 3, Entry.mk [4] none 5], e.wf) ∧
    (RecreateHints.dropRun
        (RecreateHints.steps 1 (Log.recreate_hints
          (([Entry.mk [1] (some [2]) 3, Entry.mk [4] none 5].map Entry.encode).flatten))) =
      .ok (rebuiltHintFile
        (([Entry.mk [1] (some [2]) 3, Entry.mk [4] none 5].map Entry.encode).flatten)) ∧
    is_valid_hint_file (some (rebuiltHintFile
        (([Entry.mk [1] (some [2]) 3, Entry.mk [4] none 5].map Entry.encode).flatten))) = true) :=
  ⟨by decide,
   recreate_hints_drop_completes 1 [Entry.mk [1] (some [2]) 3, Entry.mk [4] none 5] (by decide)⟩

/-- Witness for C6 with zero consumed elements of a one-entry file. -/
theorem recreate_hints_finalize_once_witness :
    (∀ e ∈ [Entry.mk [9] (some [8, 7]) 6], e.wf) ∧
    ((RecreateHints.steps 0 (Log.recreate_hints
        (([Entry.mk [9] (some [8, 7]) 6].map Entry.encode).flatten))).hint_file =
      ((liveHints 0 ([Entry.mk [9] (some [8, 7]) 6].take 0)).map Hint.encode).flatten ∧
    RecreateHints.dropRun
        (RecreateHints.steps 0 (Log.recreate_hints
          (([Entry.mk [9] (some [8, 7]) 6].map Entry.encode).flatten))) =
      .ok (((liveHints 0 [Entry.mk [9] (some [8, 7]) 6]).map Hint.encode).flatten ++
           le 4 (xxhash32 (((liveHints 0 [Entry.mk [9] (some [8, 7]) 6]).map
             Hint.encode).flatten)))) :=
  ⟨by decide, recreate_hints_finalize_once 0 [Entry.mk [9] (some [8, 7]) 6] (by decide)⟩

/-! ## C9: the `Entries` iterator is finite and bounded -/

theorem Entries.next_yield_len {s : EntriesState} {p : Nat} {e : Entry} {s' : EntriesState}
    (h : Entries.next s = .yield p e s') :
    1 ≤ e.size ∧ e.size ≤ s.remaining.length ∧
      s'.remaining.length = s.remaining.length - e.size := by
  unfold Entries.next at h
  split at h
  · simp at h
  · split at h
    · simp at h
    · rename_i e' n hdec
      cases h
      obtain ⟨hsz, h14, hle⟩ := decodeEntry_size hdec
      subst hsz
      exact ⟨by omega, by omega, by simp [List.length_drop]⟩

theorem entriesList_bounded (s : EntriesState) :
    sizeSum ((entriesList s).map Prod.snd) ≤ s.remaining.length ∧
    (∀ pe ∈ entriesList s, 1 ≤ pe.2.size) ∧
    (entriesList s).length ≤ s.remaining.length := by
  generalize hn : s.remaining.length = n
  induction n using Nat.strong_induction_on generalizing s with
  | _ n ih =>
    cases hnext : Entries.next s with
    | done =>
      rw [entriesList_done hnext]
      simp [sizeSum]
    | fail =>
      rw [entriesList_fail hnext]
      simp [sizeSum]
    | yield p e s' =>
      obtain ⟨h1, h2, h3⟩ := Entries.next_yield_len hnext
      have hlt : s'.remaining.length < n := hn ▸ Entries.next_shrink hnext
      obtain ⟨ha, hb, hc⟩ := ih s'.remaining.length hlt s' rfl
      rw [entriesList_yield hnext]
      refine ⟨?_, ?_, ?_⟩
      · simp only [List.map_cons, sizeSum, List.sum_cons]
        simp only [sizeSum] at ha
        omega
      · intro pe hpe
        rcases List.mem_cons.mp hpe with rfl | hmem
        · exact h1
        · exact hb pe hmem
      · simp only [List.length_cons]
        omega

/-- C9: the iterator `entries(file_id)` yields a finite list (it is a total
function into `List`); the total encoded size of the yielded entries is
bounded by the data file's length captured at the call, every yielded entry
consumes at least one byte of that bound, and hence the number of yielded
entries is also at most that length. -/
theorem entries_finite_bounded (data : List Nat) :
    sizeSum ((entriesList (Log.entries data)).map Prod.snd) ≤ data.length ∧
    (∀ pe ∈ entriesList (Log.entries data), 1 ≤ pe.2.size) ∧
    (entriesList (Log.entries data)).length ≤ data.length :=
  entriesList_bounded (Log.entries data)

/-! ## C7: `Log::open` -/

theorem find_data_files_sorted (ents : List (FName × Bool)) :
    (find_data_files ents).Sorted (· ≤ ·) :=
  List.sorted_insertionSort _ _

theorem find_data_files_mem (ents : List (FName × Bool)) (id : Nat) :
    id ∈ find_data_files ents ↔ ((FName.dataF id, true) ∈ ents ∧ id < M) := by
  unfold find_data_files
  rw [List.mem_insertionSort, List.mem_filterMap]
  constructor
  · rintro ⟨⟨fn, fl⟩, hmem, hf⟩
    dsimp only at hf
    cases fl
    · simp at hf
    · cases fn with
      | dataF j =>
        simp only [if_true] at hf
        by_cases hj : j < M
        · rw [if_pos hj] at hf
          simp only [Option.some.injEq] at hf
          subst hf
          exact ⟨hmem, hj⟩
        · rw [if_neg hj] at hf
          simp at hf
      | hintF j => simp at hf
      | lockF => simp at hf
      | other t => simp at hf
  · rintro ⟨hmem, hlt⟩
    exact ⟨(FName.dataF id, true), hmem, by simp [hlt]⟩

/-- C7: `open` creates the directory if absent; fails (fatally, via
`unwrap`) precisely when the exclusive lock is already held; scans the
directory for data-file names, recording the ids sorted ascending; and
creates a fresh active segment whose id is the current time in whole
seconds as a `u32`, with empty data and hint files on disk and a fresh
hasher. -/
theorem open_characterization (now : Nat) (sync : Bool) (w : World) :
    (Log.open now sync w = .error .lockHeld ↔ w.locked = true) ∧
    (∀ L w', Log.open now sync w = .ok (L, w') →
      L.current_file_id = now % M ∧
      L.files.Sorted (· ≤ ·) ∧
      (∀ id, id ∈ L.files ↔
        ((FName.dataF id, true) ∈ w.dirFiles ∧ w.dirExists = true ∧ id < M)) ∧
      L.active_data = [] ∧ L.active_hint = [] ∧
      L.active_hint_file_hasher = XxHash32.new ∧ L.sealed = [] ∧
      L.sync = sync ∧ L.size_threshold = DEFAULT_SIZE_THRESHOLD ∧
      w'.dirExists = true ∧ w'.locked = true ∧
      (FName.dataF (now % M), true) ∈ w'.dirFiles ∧
      (FName.hintF (now % M), true) ∈ w'.dirFiles) := by
  obtain ⟨de, df, lk⟩ := w
  constructor
  · cases de <;> cases lk <;> simp [Log.open]
  · intro L w' hok
    cases de <;> cases lk <;> simp only [Log.open, if_true, if_false] at hok
    case false.false =>
      simp only [Bool.false_eq_true, if_false, Except.ok.injEq, Prod.mk.injEq] at hok
      obtain ⟨rfl, rfl⟩ := hok
      refine ⟨rfl, find_data_files_sorted _, ?_, rfl, rfl, rfl, rfl, rfl, rfl,
        rfl, rfl, by simp, by simp⟩
      intro id
      rw [find_data_files_mem]
      simp
    case false.true => simp at hok
    case true.false =>
      simp only [Bool.false_eq_true, if_false, Except.ok.injEq, Prod.mk.injEq] at hok
      obtain ⟨rfl, rfl⟩ := hok
      refine ⟨rfl, find_data_files_sorted _, ?_, rfl, rfl, rfl, rfl, rfl, rfl,
        rfl, rfl, by simp, by simp⟩
      intro id
      rw [find_data_files_mem]
      simp
    case true.true => simp at hok

/-- Witness for C7: opening an existing directory holding one data file. -/
theorem open_characterization_witness :
    (⟨false, DEFAULT_SIZE_THRESHOLD, [3], 6, [], [], XxHash32.new, []⟩ : Log).current_file_id
        = 6 % M ∧
    (⟨false, DEFAULT_SIZE_THRESHOLD, [3], 6, [], [], XxHash32.new, []⟩ : Log).files.Sorted
        (· ≤ ·) ∧
    (∀ id, id ∈ (⟨false, DEFAULT_SIZE_THRESHOLD, [3], 6, [], [], XxHash32.new, []⟩ : Log).files ↔
      ((FName.dataF id, true) ∈ (⟨true, [(FName.dataF 3, true)], false⟩ : World).dirFiles ∧
        (⟨true, [(FName.dataF 3, true)], false⟩ : World).dirExists = true ∧ id < M)) ∧
    (⟨false, DEFAULT_SIZE_THRESHOLD, [3], 6, [], [], XxHash32.new, []⟩ : Log).active_data = [] ∧
    (⟨false, DEFAULT_SIZE_THRESHOLD, [3], 6, [], [], XxHash32.new, []⟩ : Log).active_hint = [] ∧
    (⟨false, DEFAULT_SIZE_THRESHOLD, [3], 6, [], [], XxHash32.new, []⟩ : Log).active_hint_file_hasher
        = XxHash32.new ∧
    (⟨false, DEFAULT_SIZE_THRESHOLD, [3], 6, [], [], XxHash32.new, []⟩ : Log).sealed = [] ∧
    (⟨false, DEFAULT_SIZE_THRESHOLD, [3], 6, [], [], XxHash32.new, []⟩ : Log).sync = false ∧
    (⟨false, DEFAULT_SIZE_THRESHOLD, [3], 6, [], [], XxHash32.new, []⟩ : Log).size_threshold
        = DEFAULT_SIZE_THRESHOLD ∧
    (⟨true, [(FName.dataF 3, true), (FName.lockF, true), (FName.dataF 6, true),
        (FName.hintF 6, true)], true⟩ : World).dirExists = true ∧
    (⟨true, [(FName.dataF 3, true), (FName.lockF, true), (FName.dataF 6, true),
        (FName.hintF 6, true)], true⟩ : World).locked = true ∧
    (FName.dataF (6 % M), true) ∈ (⟨true, [(FName.dataF 3, true), (FName.lockF, true),
        (FName.dataF 6, true), (FName.hintF 6, true)], true⟩ : World).dirFiles ∧
    (FName.hintF (6 % M), true) ∈ (⟨true, [(FName.dataF 3, true), (FName.lockF, true),
        (FName.dataF 6, true), (FName.hintF 6, true)], true⟩ : World).dirFiles :=
  (open_characterization 6 false ⟨true, [(FName.dataF 3, true)], false⟩).2
    ⟨false, DEFAULT_SIZE_THRESHOLD, [3], 6, [], [], XxHash32.new, []⟩
    ⟨true, [(FName.dataF 3, true), (FName.lockF, true), (FName.dataF 6, true),
        (FName.hintF 6, true)], true⟩
    rfl

/-! ## C8: checksum sensitivity -/

theorem set_eq_take_cons_drop {α : Type} (l : List α) (i : Nat) (a : α) (h : i < l.length) :
    l.set i a = l.take i ++ a :: l.drop (i + 1) := by
  induction l generalizing i with
  | nil => simp at h
  | cons x xs ih =>
    cases i with
    | zero => simp
    | succ n =>
      simp only [List.set_cons_succ, List.take_succ_cons, List.drop_succ_cons, List.cons_append]
      rw [ih n (by simpa using h)]

theorem eq_take_getD_cons_drop {α : Type} (l : List α) (i : Nat) (d : α) (h : i < l.length) :
    l = l.take i ++ l.getD i d :: l.drop (i + 1) := by
  induction l generalizing i with
  | nil => simp at h
  | cons x xs ih =>
    cases i with
    | zero => simp [List.getD]
    | succ n =>
      simp only [List.take_succ_cons, List.drop_succ_cons, List.cons_append, List.getD_cons_succ]
      rw [← ih n (by simpa using h)]

theorem set_append_left {α : Type} (p t : List α) (i : Nat) (a : α) (h : i < p.length) :
    (p ++ t).set i a = p.set i a ++ t := by
  induction p generalizing i with
  | nil => simp at h
  | cons x xs ih =>
    cases i with
    | zero => simp
    | succ n =>
      simp only [List.cons_append, List.set_cons_succ]
      rw [ih n (by simpa using h)]

/-- C8: flipping any single byte of a currently valid hint file's payload
(the bytes before the trailing 4 checksum bytes) makes `hints` report the
file absent; and a hint file shorter than 4 bytes is reported absent. -/
theorem checksum_sensitivity :
    (∀ (buf : List Nat) (i b' : Nat),
      is_valid_hint_file (some buf) = true →
      i < buf.length - 4 →
      b' < 256 → (∀ b ∈ buf, b < 256) →
      b' ≠ buf.getD i 0 →
      Log.hints (some (buf.set i b')) = none) ∧
    (∀ buf : List Nat, buf.length < 4 → Log.hints (some buf) = none) := by
  constructor
  · intro buf i b' hvalid hi hb' hbytes hne
    have hv : 4 ≤ buf.length ∧
        xxhash32 (buf.take (buf.length - 4)) = leDec (buf.drop (buf.length - 4)) := by
      unfold is_valid_hint_file at hvalid
      simp only [Bool.and_eq_true, decide_eq_true_eq] at hvalid
      exact hvalid
    obtain ⟨h4, hck⟩ := hv
    have hPlen : (buf.take (buf.length - 4)).length = buf.length - 4 := by
      simp
    have hiP : i < (buf.take (buf.length - 4)).length := by
      rw [hPlen]
      exact hi
    have hib : i < buf.length := by omega
    have hbufsplit : buf = buf.take (buf.length - 4) ++ buf.drop (buf.length - 4) :=
      (List.take_append_drop _ buf).symm
    have hset : buf.set i b' =
        (buf.take (buf.length - 4)).set i b' ++ buf.drop (buf.length - 4) := by
      conv_lhs => rw [hbufsplit]
      exact set_append_left _ _ i b' hiP
    have hmem : buf.getD i 0 ∈ buf := by
      rw [List.getD_eq_getElem buf 0 hib]
      exact List.getElem_mem hib
    have hblt : buf.getD i 0 < 256 := hbytes _ hmem
    have hgetP : (buf.take (buf.length - 4)).getD i 0 = buf.getD i 0 := by
      conv_rhs => rw [hbufsplit]
      rw [List.getD_append _ _ 0 i hiP]
    have hhash : xxhash32 ((buf.take (buf.length - 4)).set i b') ≠
        xxhash32 (buf.take (buf.length - 4)) := by
      rw [set_eq_take_cons_drop _ i b' hiP]
      conv_rhs => rw [eq_take_getD_cons_drop (buf.take (buf.length - 4)) i 0 hiP]
      exact xxhash32_single_byte _ _ b' ((buf.take (buf.length - 4)).getD i 0) hb'
        (hgetP ▸ hblt) (hgetP ▸ hne)
    have hneq : xxhash32 ((buf.take (buf.length - 4)).set i b') ≠
        leDec (buf.drop (buf.length - 4)) := by
      rw [← hck]
      exact hhash
    have hlen' : (buf.set i b').length = buf.length := by
      simp
    have hsetlen : ((buf.take (buf.length - 4)).set i b').length = buf.length - 4 := by
      simp
    have hvalid' : is_valid_hint_file (some (buf.set i b')) = false := by
      unfold is_valid_hint_file
      dsimp only
      rw [hlen', hset, List.take_left' hsetlen, List.drop_left' hsetlen]
      simp [hneq]
    unfold Log.hints
    rw [hvalid']
    simp
  · intro buf hlt
    have h4 : ¬ 4 ≤ buf.length := by omega
    unfold Log.hints is_valid_hint_file
    dsimp only
    simp [h4]

/-- Witness for C8: flip the payload byte of a 5-byte valid hint file, and
reject a 3-byte hint file. -/
theorem checksum_sensitivity_witness :
    (is_valid_hint_file (some [0, 0, 0, 0, 0]) = true ∧
     Log.hints (some (([0, 0, 0, 0, 0] : List Nat).set 0 1)) = none) ∧
    Log.hints (some [1, 2, 3]) = none :=
  ⟨⟨by decide,
    checksum_sensitivity.1 [0, 0, 0, 0, 0] 0 1 (by decide) (by decide) (by decide)
      (by decide) (by decide)⟩,
   checksum_sensitivity.2 [1, 2, 3] (by decide)⟩

/-! ## C5: what `files()` actually returns -/

theorem write_entry_files (s : Log) (now : Nat) (e : Entry) :
    ((s.write_entry now e).2).files = s.files := by
  by_cases h : s.size_threshold < s.active_data.length + e.size
  · rw [write_entry_rotate s now e h]
  · rw [write_entry_no_rotate s now e (by omega)]

/-- C5 counterexample: open an empty directory at time 5 and perform the
empty sequence of `write_entry` calls; `files()` is `[]`, which does not
contain the active segment's id 5, contradicting the claim that `files()`
comprises the current active segment's id. -/
theorem files_missing_active_cex :
    (match Log.open 5 false ⟨true, [], false⟩ with
     | .ok (L, _) => decide (L.current_file_id ∈ L.files)
     | .error _ => true) = false := by
  decide

/-- C5 amended: `files()` returns the segment ids discovered by the
directory scan at `open` — it is never updated afterwards, so it excludes
the active segment's id and the ids of segments sealed by rotation during
this run (unless those ids were already on disk at open). -/
theorem files_snapshot_of_open :
    (∀ (s : Log) (ws : List (Nat × Entry)), (Log.write_all s ws).files = s.files) ∧
    (∀ (now : Nat) (sync : Bool) (w : World) (L : Log) (w' : World),
      Log.open now sync w = .ok (L, w') →
      L.files = find_data_files
        ((if w.dirExists then w.dirFiles else []) ++ [(FName.lockF, true)])) := by
  constructor
  · intro s ws
    induction ws generalizing s with
    | nil => rfl
    | cons w ws ih =>
      show (Log.write_all ((s.write_entry w.1 w.2).2) ws).files = s.files
      rw [ih, write_entry_files]
  · intro now sync w L w' hok
    obtain ⟨de, df, lk⟩ := w
    cases de <;> cases lk <;> simp only [Log.open, if_true, if_false] at hok
    case false.false =>
      simp only [Bool.false_eq_true, if_false, Except.ok.injEq, Prod.mk.injEq] at hok
      obtain ⟨rfl, rfl⟩ := hok
      rfl
    case false.true => simp at hok
    case true.false =>
      simp only [Bool.false_eq_true, if_false, Except.ok.injEq, Prod.mk.injEq] at hok
      obtain ⟨rfl, rfl⟩ := hok
      rfl
    case true.true => simp at hok

/-- Witness for the amended C5. -/
theorem files_snapshot_of_open_witness :
    (Log.write_all ⟨false, 100, [2], 5, [], [], 0, []⟩
      [(10, Entry.mk [1] none 0)]).files = [2] ∧
    ((⟨false, DEFAULT_SIZE_THRESHOLD, [3], 6, [], [], XxHash32.new, []⟩ : Log).files =
      find_data_files ((if (⟨true, [(FName.dataF 3, true)], false⟩ : World).dirExists
        then (⟨true, [(FName.dataF 3, true)], false⟩ : World).dirFiles else []) ++
        [(FName.lockF, true)])) :=
  ⟨files_snapshot_of_open.1 ⟨false, 100, [2], 5, [], [], 0, []⟩ [(10, Entry.mk [1] none 0)],
   files_snapshot_of_open.2 6 false ⟨true, [(FName.dataF 3, true)], false⟩
     ⟨false, DEFAULT_SIZE_THRESHOLD, [3], 6, [], [], XxHash32.new, []⟩
     ⟨true, [(FName.dataF 3, true), (FName.lockF, true), (FName.dataF 6, true),
         (FName.hintF 6, true)], true⟩ rfl⟩

/-! ## C4: rotation -/

/-- C4 counterexample: with threshold 100 (the spec's §6 makes the
threshold a configuration parameter), three appends of 60 encoded bytes
each have cumulative size 180 > 100 but trigger two rotations, so two new
segments are created, not exactly one. -/
theorem rotation_exactly_one_cex :
    100 < sizeSum ([((10 : Nat), Entry.mk [0] (some (List.replicate 45 0)) 0),
        (11, Entry.mk [0] (some (List.replicate 45 0)) 0),
        (12, Entry.mk [0] (some (List.replicate 45 0)) 0)].map Prod.snd) ∧
    (Log.write_all ⟨false, 100, [], 5, [], [], 0, []⟩
        [((10 : Nat), Entry.mk [0] (some (List.replicate 45 0)) 0),
         (11, Entry.mk [0] (some (List.replicate 45 0)) 0),
         (12, Entry.mk [0] (some (List.replicate 45 0)) 0)]).sealed.length = 2 := by
  constructor
  · decide
  · rfl

/-- The segment ids known to a `Log`, oldest first: the sealed segments'
ids then the active segment's id. -/
def logIds (s : Log) : List Nat := s.sealed.map Prod.fst ++ [s.current_file_id]

theorem logIds_fields (sy : Bool) (th : Nat) (fi : List Nat) (cid : Nat)
    (ad ah : List Nat) (hh : Nat) (sl : List (Nat × List Nat × List Nat)) :
    logIds ⟨sy, th, fi, cid, ad, ah, hh, sl⟩ = sl.map Prod.fst ++ [cid] := rfl

theorem write_all_sealed_mono (ws : List (Nat × Entry)) (s : Log) :
    s.sealed.length ≤ (Log.write_all s ws).sealed.length := by
  induction ws generalizing s with
  | nil => exact Nat.le_refl _
  | cons w ws ih =>
    have hstep : s.sealed.length ≤ ((s.write_entry w.1 w.2).2).sealed.length := by
      by_cases h : s.size_threshold < s.active_data.length + w.2.size
      · rw [write_entry_rotate s w.1 w.2 h]
        simp
      · rw [write_entry_no_rotate s w.1 w.2 (by omega)]
    exact le_trans hstep (ih _)

/-- If no rotation happened across a batch, the active file grew by the
batch's total encoded size, and (for a nonempty batch) that total fit
under the threshold. -/
theorem no_rotation_growth (ws : List (Nat × Entry)) (s : Log)
    (h : (Log.write_all s ws).sealed.length = s.sealed.length) :
    (Log.write_all s ws).active_data.length =
      s.active_data.length + sizeSum (ws.map Prod.snd) ∧
    (ws ≠ [] → s.active_data.length + sizeSum (ws.map Prod.snd) ≤ s.size_threshold) := by
  induction ws generalizing s with
  | nil =>
    exact ⟨by simp [Log.write_all, sizeSum], by simp⟩
  | cons w ws ih =>
    by_cases hrot : s.size_threshold < s.active_data.length + w.2.size
    · exfalso
      have h1 : ((s.write_entry w.1 w.2).2).sealed.length = s.sealed.length + 1 := by
        rw [write_entry_rotate s w.1 w.2 hrot]
        simp
      have h2 := write_all_sealed_mono ws ((s.write_entry w.1 w.2).2)
      have h3 : Log.write_all s (w :: ws) =
          Log.write_all ((s.write_entry w.1 w.2).2) ws := rfl
      rw [h3] at h
      omega
    · have hstep := write_entry_no_rotate s w.1 w.2 (by omega)
      have h3 : Log.write_all s (w :: ws) =
          Log.write_all ((s.write_entry w.1 w.2).2) ws := rfl
      rw [h3, hstep] at h ⊢
      have hlen : (s.active_data ++ w.2.encode).length =
          s.active_data.length + w.2.size := by
        simp [List.length_append, Entry.encode_length]
      obtain ⟨ha, hb⟩ := ih _ h
      have hsum : sizeSum ((w :: ws).map Prod.snd) =
          w.2.size + sizeSum (ws.map Prod.snd) := by
        simp [sizeSum]
      constructor
      · rw [ha]
        dsimp only
        rw [hlen, hsum]
        omega
      · intro _
        cases ws with
        | nil =>
          simp only [sizeSum, List.map_nil, List.map_cons, List.sum_cons, List.sum_nil]
          omega
        | cons w2 ws2 =>
          have hb' := hb (by simp)
          dsimp only at hb'
          rw [hlen] at hb'
          rw [hsum]
          omega

/-- Rotations assign strictly increasing segment ids as long as the clock
values supplied are strictly increasing, above the current id, and within
`u32` range. -/
theorem write_all_ids_increasing (ws : List (Nat × Entry)) (s : Log)
    (hinv : (logIds s).Pairwise (· < ·))
    (hfuture : ∀ w ∈ ws, s.current_file_id < w.1 ∧ w.1 < M)
    (hwsinc : (ws.map Prod.fst).Pairwise (· < ·)) :
    (logIds (Log.write_all s ws)).Pairwise (· < ·) := by
  induction ws generalizing s with
  | nil => exact hinv
  | cons w ws ih =>
    have h3 : Log.write_all s (w :: ws) =
        Log.write_all ((s.write_entry w.1 w.2).2) ws := rfl
    rw [h3]
    obtain ⟨hcur, hM⟩ := hfuture w (by simp)
    have hwfst : ∀ v ∈ ws, w.1 < v.1 := by
      intro v hv
      have := (List.pairwise_cons.mp hwsinc).1
      exact this v.1 (List.mem_map_of_mem Prod.fst hv)
    by_cases hrot : s.size_threshold < s.active_data.length + w.2.size
    · rw [write_entry_rotate s w.1 w.2 hrot]
      apply ih
      · rw [logIds_fields, Nat.mod_eq_of_lt hM, List.map_append]
        have hmap : ([(s.current_file_id, s.active_data,
            s.active_hint ++ le 4 s.active_hint_file_hasher)].map
              (Prod.fst : Nat × List Nat × List Nat → Nat)) = [s.current_file_id] := rfl
        rw [hmap, List.pairwise_append]
        refine ⟨hinv, by simp, ?_⟩
        intro a ha b hb
        rw [List.mem_singleton] at hb
        subst hb
        have hinv' : (s.sealed.map Prod.fst ++ [s.current_file_id]).Pairwise (· < ·) := hinv
        rcases List.mem_append.mp ha with hsl | hcurm
        · have h5 := (List.pairwise_append.mp hinv').2.2 a hsl s.current_file_id (by simp)
          omega
        · rw [List.mem_singleton] at hcurm
          subst hcurm
          exact hcur
      · intro v hv
        refine ⟨?_, (hfuture v (by simp [hv])).2⟩
        show w.1 % M < v.1
        rw [Nat.mod_eq_of_lt hM]
        exact hwfst v hv
      · exact (List.pairwise_cons.mp hwsinc).2
    · rw [write_entry_no_rotate s w.1 w.2 (by omega)]
      apply ih
      · exact hinv
      · intro v hv
        exact ⟨(hfuture v (by simp [hv])).1, (hfuture v (by simp [hv])).2⟩
      · exact (List.pairwise_cons.mp hwsinc).2

/-- Entries are never split: every data file on disk is a concatenation of
whole entry encodings, partitioning the appended batch in order. -/
theorem write_all_segmented (ws : List (Nat × Entry)) (s : Log)
    (gs : List (List Entry)) (g : List Entry)
    (hs : s.sealed.map (fun t => t.2.1) =
      gs.map (fun grp => (grp.map Entry.encode).flatten))
    (ha : s.active_data = (g.map Entry.encode).flatten) :
    ∃ (gs' : List (List Entry)) (g' : List Entry),
      (Log.write_all s ws).sealed.map (fun t => t.2.1) =
        gs'.map (fun grp => (grp.map Entry.encode).flatten) ∧
      (Log.write_all s ws).active_data = (g'.map Entry.encode).flatten ∧
      gs'.flatten ++ g' = (gs.flatten ++ g) ++ ws.map Prod.snd := by
  induction ws generalizing s gs g with
  | nil => exact ⟨gs, g, hs, ha, by simp⟩
  | cons w ws ih =>
    have h3 : Log.write_all s (w :: ws) =
        Log.write_all ((s.write_entry w.1 w.2).2) ws := rfl
    rw [h3]
    by_cases hrot : s.size_threshold < s.active_data.length + w.2.size
    · have hs1 : ((s.write_entry w.1 w.2).2).sealed.map (fun t => t.2.1) =
          (gs ++ [g]).map (fun grp => (grp.map Entry.encode).flatten) := by
        rw [write_entry_rotate s w.1 w.2 hrot]
        show (s.sealed ++ [(s.current_file_id, s.active_data,
          s.active_hint ++ le 4 s.active_hint_file_hasher)]).map (fun t => t.2.1) = _
        rw [List.map_append, List.map_append, hs]
        simp [ha]
      have ha1 : ((s.write_entry w.1 w.2).2).active_data =
          ([w.2].map Entry.encode).flatten := by
        rw [write_entry_rotate s w.1 w.2 hrot]
        simp
      obtain ⟨gs', g', h1, h2, hflat⟩ := ih _ (gs ++ [g]) [w.2] hs1 ha1
      refine ⟨gs', g', h1, h2, ?_⟩
      rw [hflat]
      simp [List.append_assoc]
    · have hs1 : ((s.write_entry w.1 w.2).2).sealed.map (fun t => t.2.1) =
          gs.map (fun grp => (grp.map Entry.encode).flatten) := by
        rw [write_entry_no_rotate s w.1 w.2 (by omega)]
        exact hs
      have ha1 : ((s.write_entry w.1 w.2).2).active_data =
          ((g ++ [w.2]).map Entry.encode).flatten := by
        rw [write_entry_no_rotate s w.1 w.2 (by omega)]
        show s.active_data ++ w.2.encode = _
        rw [ha]
        simp
      obtain ⟨gs', g', h1, h2, hflat⟩ := ih _ gs (g ++ [w.2]) hs1 ha1
      refine ⟨gs', g', h1, h2, ?_⟩
      rw [hflat]
      simp [List.append_assoc]

/-- C4 amended: a batch whose cumulative encoded size exceeds the
configured threshold creates at least one new segment (one per write whose
pre-write position plus entry size exceeds the threshold — possibly more
than one); when the supplied clock values strictly increase and stay above
the previous active id and inside `u32`, every newly created segment's id
is strictly greater than the id it succeeds; and no entry's bytes are
split across two data files.  -/
theorem rotation_correctness_amended (ws : List (Nat × Entry)) (s0 : Log)
    (hd : s0.active_data = []) (hsealed : s0.sealed = [])
    (hover : s0.size_threshold < sizeSum (ws.map Prod.snd))
    (hclock : ∀ w ∈ ws, s0.current_file_id < w.1 ∧ w.1 < M)
    (hwsinc : (ws.map Prod.fst).Pairwise (· < ·)) :
    1 ≤ (Log.write_all s0 ws).sealed.length ∧
    (logIds (Log.write_all s0 ws)).Pairwise (· < ·) ∧
    ∃ (gs : List (List Entry)) (g : List Entry),
      (Log.write_all s0 ws).sealed.map (fun t => t.2.1) =
        gs.map (fun grp => (grp.map Entry.encode).flatten) ∧
      (Log.write_all s0 ws).active_data = (g.map Entry.encode).flatten ∧
      gs.flatten ++ g = ws.map Prod.snd := by
  refine ⟨?_, ?_, ?_⟩
  · by_contra hc
    push_neg at hc
    have h0 : (Log.write_all s0 ws).sealed.length = s0.sealed.length := by
      have := write_all_sealed_mono ws s0
      rw [hsealed] at *
      simp only [List.length_nil] at *
      omega
    obtain ⟨_, hb⟩ := no_rotation_growth ws s0 h0
    have hws_ne : ws ≠ [] := by
      intro hnil
      rw [hnil] at hover
      simp [sizeSum] at hover
    have := hb hws_ne
    rw [hd] at this
    simp only [List.length_nil] at this
    omega
  · apply write_all_ids_increasing ws s0 _ hclock hwsinc
    unfold logIds
    rw [hsealed]
    simp
  · have := write_all_segmented ws s0 [] []
      (by rw [hsealed]; rfl) (by rw [hd]; rfl)
    obtain ⟨gs, g, h1, h2, h3⟩ := this
    exact ⟨gs, g, h1, h2, by simpa using h3⟩

/-- Witness for the amended C4 at the three-append counterexample input. -/
theorem rotation_correctness_amended_witness :
    (100 < sizeSum ([((10 : Nat), Entry.mk [0] (some (List.replicate 45 0)) 0),
        (11, Entry.mk [0] (some (List.replicate 45 0)) 0),
        (12, Entry.mk [0] (some (List.replicate 45 0)) 0)].map Prod.snd)) ∧
    (1 ≤ (Log.write_all ⟨false, 100, [], 5, [], [], 0, []⟩
        [((10 : Nat), Entry.mk [0] (some (List.replicate 45 0)) 0),
         (11, Entry.mk [0] (some (List.replicate 45 0)) 0),
         (12, Entry.mk [0] (some (List.replicate 45 0)) 0)]).sealed.length ∧
    (logIds (Log.write_all ⟨false, 100, [], 5, [], [], 0, []⟩
        [((10 : Nat), Entry.mk [0] (some (List.replicate 45 0)) 0),
         (11, Entry.mk [0] (some (List.replicate 45 0)) 0),
         (12, Entry.mk [0] (some (List.replicate 45 0)) 0)])).Pairwise (· < ·) ∧
    ∃ (gs : List (List Entry)) (g : List Entry),
      (Log.write_all ⟨false, 100, [], 5, [], [], 0, []⟩
        [((10 : Nat), Entry.mk [0] (some (List.replicate 45 0)) 0),
         (11, Entry.mk [0] (some (List.replicate 45 0)) 0),
         (12, Entry.mk [0] (some (List.replicate 45 0)) 0)]).sealed.map (fun t => t.2.1) =
        gs.map (fun grp => (grp.map Entry.encode).flatten) ∧
      (Log.write_all ⟨false, 100, [], 5, [], [], 0, []⟩
        [((10 : Nat), Entry.mk [0] (some (List.replicate 45 0)) 0),
         (11, Entry.mk [0] (some (List.replicate 45 0)) 0),
         (12, Entry.mk [0] (some (List.replicate 45 0)) 0)]).active_data =
        (g.map Entry.encode).flatten ∧
      gs.flatten ++ g = [((10 : Nat), Entry.mk [0] (some (List.replicate 45 0)) 0),
         (11, Entry.mk [0] (some (List.replicate 45 0)) 0),
         (12, Entry.mk [0] (some (List.replicate 45 0)) 0)].map Prod.snd) :=
  ⟨by decide,
   rotation_correctness_amended
     [((10 : Nat), Entry.mk [0] (some (List.replicate 45 0)) 0),
      (11, Entry.mk [0] (some (List.replicate 45 0)) 0),
      (12, Entry.mk [0] (some (List.replicate 45 0)) 0)]
     ⟨false, 100, [], 5, [], [], 0, []⟩
     rfl rfl (by decide) (by decide) (by decide)⟩

end Cask
